import Mathlib

/-!
# kindle-converter: a shallow embedding of `src/api/server.js`

JavaScript strings are embedded as `List Char`.  Every string operation the
server performs (splitting on `" - "` and on the newline, the ASCII regular
expressions, `endsWith`, `replace`, `trim`, the POSIX `path` helpers) acts on
characters of the Basic Multilingual Plane only, so working with code points
instead of UTF-16 code units changes nothing.

The shell (`execPromise`), the file system (`fs.access`) and the mail relay
(`transporter.sendMail`) are external: they enter the handlers as outcome
functions, and every command or message handed to them is recorded in a log.
-/

namespace KindleConverter

/-! ## JavaScript string primitives -/

/-- The double-quote character used inside the shell command templates. -/
def dquote : Char := Char.ofNat 34

/-- The newline character on which the enumeration output is split. -/
def newline : Char := Char.ofNat 10

/-- The separator of the "Author - Title" filename convention. -/
def authorSep : List Char := " - ".toList

/-- Worker of `String.prototype.split` for a non-empty separator: `skip` counts
the characters of a separator just matched that are still to be consumed,
`acc` holds the current part in reverse. -/
def splitGo (sep : List Char) : List Char → Nat → List Char → List (List Char)
  | [], _, acc => [acc.reverse]
  | _ :: cs, skip + 1, acc => splitGo sep cs skip acc
  | c :: cs, 0, acc =>
    if sep.isPrefixOf (c :: cs) then acc.reverse :: splitGo sep cs (sep.length - 1) []
    else splitGo sep cs 0 (c :: acc)

/-- The call `s.split(sep)` for a non-empty string separator: the parts between
the successive, non-overlapping occurrences of `sep`, scanning left to right. -/
def jsSplit (sep s : List Char) : List (List Char) := splitGo sep s 0 []

/-- The call `s.endsWith(suffix)`. -/
def endsWith (s suffix : List Char) : Bool := suffix.isSuffixOf s

/-- The call `s.replace(pat, rep)` for a non-empty string pattern and a
replacement without `$`: only the first occurrence of `pat` is replaced. -/
def replaceFirst (pat rep : List Char) : List Char → List Char
  | [] => []
  | c :: cs =>
    if pat.isPrefixOf (c :: cs) then rep ++ (c :: cs).drop pat.length
    else c :: replaceFirst pat rep cs

/-- The class `\s` of a JavaScript regular expression, which is also the set of
characters `trim` removes: WhiteSpace and LineTerminator code points. -/
def isJsWhitespace (c : Char) : Bool :=
  let n := c.toNat
  (9 ≤ n && n ≤ 13) || n == 32 || n == 160 || n == 5760 || (8192 ≤ n && n ≤ 8202) ||
    n == 8232 || n == 8233 || n == 8239 || n == 8287 || n == 12288 || n == 65279

/-- Whether a five-character string matches `\.(epub|mobi)` under the `i` flag.
Without the `u` flag only the ASCII letters of either case match. -/
def isBookExt (t : List Char) : Bool :=
  t.map Char.toLower == ".epub".toList || t.map Char.toLower == ".mobi".toList

/-- The call `s.replace(/\.(epub|mobi)$/i, '')`: a trailing book extension is
removed, anything else is left alone. -/
def stripBookExt (s : List Char) : List Char :=
  if isBookExt (s.drop (s.length - 5)) then s.take (s.length - 5) else s

/-- The call `s.replace(/\./g, ' ')`. -/
def dotsToSpaces (s : List Char) : List Char :=
  s.map (fun c => if c == '.' then ' ' else c)

/-- Worker of `s.replace(/\s+/g, ' ')`: `inRun` tells whether the previous
character was whitespace, in which case the single space is already emitted. -/
def collapseGo : Bool → List Char → List Char
  | _, [] => []
  | inRun, c :: cs =>
    if isJsWhitespace c then
      if inRun then collapseGo true cs else ' ' :: collapseGo true cs
    else c :: collapseGo false cs

/-- The call `s.replace(/\s+/g, ' ')`: every maximal run of whitespace becomes
one space. -/
def collapseWhitespace (s : List Char) : List Char := collapseGo false s

/-- The call `s.trim()`. -/
def jsTrim (s : List Char) : List Char :=
  ((s.dropWhile isJsWhitespace).reverse.dropWhile isJsWhitespace).reverse

/-- Rendering of a number inside a template literal. -/
def showNat (n : Nat) : List Char := (Nat.repr n).toList

/-! ## Node's POSIX `path` helpers -/

/-- Node's `path.basename(p)` on POSIX: trailing slashes are ignored and the
last component is returned; a path made of slashes only gives `''`. -/
def basename (p : List Char) : List Char :=
  ((p.reverse.dropWhile (· == '/')).takeWhile (· != '/')).reverse

/-- Node's `path.dirname(p)` on POSIX.  The scan runs from the last index down
to index 1: trailing slashes are skipped, then the last component, and the
first slash met afterwards ends the directory part. -/
def dirname (p : List Char) : List Char :=
  match p with
  | [] => ['.']
  | c0 :: tl =>
    let hasRoot := c0 == '/'
    match ((tl.reverse.dropWhile (· == '/')).dropWhile (· != '/')) with
    | [] => if hasRoot then ['/'] else ['.']
    | _ :: rest => if hasRoot && rest.isEmpty then ['/', '/'] else c0 :: rest.reverse

/-! ## The filename parser -/

/-- The object `parseBookInfo` returns. -/
structure BookInfo where
  filepath : List Char
  filename : List Char
  author : List Char
  title : List Char
  format : List Char
  deriving DecidableEq, Repr

/-- The cleaned title of the non-standard branch of `parseBookInfo`. -/
def cleanTitle (filename : List Char) : List Char :=
  jsTrim (collapseWhitespace (dotsToSpaces (stripBookExt filename)))

/-- The function `parseBookInfo(filepath)`. -/
def parseBookInfo (filepath : List Char) : BookInfo :=
  let filename := basename filepath
  let dirName := basename (dirname filepath)
  let format := if endsWith filepath ".mobi".toList then "mobi".toList else "epub".toList
  match jsSplit authorSep filename with
  | p0 :: p1 :: _ =>
    { filepath := filepath, filename := filename, author := p0,
      title := stripBookExt p1, format := format }
  | _ =>
    if !dirName.isEmpty && dirName != "Books".toList && !dirName.contains '/' then
      { filepath := filepath, filename := filename, author := dirName,
        title := cleanTitle filename, format := format }
    else
      { filepath := filepath, filename := filename, author := "Unknown".toList,
        title := cleanTitle filename, format := format }

/-! ## Responses and external outcomes -/

/-- What a handler sends back: `res.json(body)` or
`res.status(500).json({ error: message })`. -/
inductive Response (α : Type) where
  | json (body : α)
  | error (status : Nat) (message : List Char)
  deriving DecidableEq, Repr

/-- Outcome of one `execPromise(command)`: success, or the message of the
error it throws. -/
abbrev Shell := List Char → Except (List Char) Unit

/-! ## POST /api/sync-library -/

/-- An element of the catalog returned by the scan. -/
structure CatalogEntry where
  id : Nat
  filepath : List Char
  filename : List Char
  author : List Char
  title : List Char
  format : List Char
  status : List Char
  added : List Char
  deriving DecidableEq, Repr

/-- The object built for one file inside `files.map`; `clock index` is the
value of `new Date().toISOString()` at that moment. -/
def mkEntry (clock : Nat → List Char) (index : Nat) (filepath : List Char) : CatalogEntry :=
  let bookInfo := parseBookInfo filepath
  { id := index, filepath := bookInfo.filepath, filename := bookInfo.filename,
    author := bookInfo.author, title := bookInfo.title, format := bookInfo.format,
    status := "ready".toList, added := clock index }

/-- The lines kept by `stdout.split('\n').filter(f => f)`. -/
def enumeratedFiles (stdout : List Char) : List (List Char) :=
  (jsSplit [newline] stdout).filter (fun f => !f.isEmpty)

/-- The sync-library handler; `findResult` is the outcome of the `find`
command: its standard output, or the message of the error thrown. -/
def syncLibrary (clock : Nat → List Char) (findResult : Except (List Char) (List Char)) :
    Response (List CatalogEntry) :=
  match findResult with
  | .ok stdout => .json ((enumeratedFiles stdout).mapIdx (fun index filepath => mkEntry clock index filepath))
  | .error message => .error 500 message

/-! ## POST /api/delete-books and POST /api/delete-book -/

/-- The command built by the template `rm -f "${filepath}"`. -/
def rmCommand (filepath : List Char) : List Char :=
  "rm -f ".toList ++ [dquote] ++ filepath ++ [dquote]

/-- The command built by the template `sudo rm -f "${filepath}"`. -/
def sudoRmCommand (filepath : List Char) : List Char :=
  "sudo rm -f ".toList ++ [dquote] ++ filepath ++ [dquote]

/-- The value `filepath.replace('.epub', '.mobi')` both delete handlers call
`mobiPath`. -/
def mobiPath (filepath : List Char) : List Char :=
  replaceFirst ".epub".toList ".mobi".toList filepath

/-- The body of the `try` block both delete handlers share: `rm -f` on the
path, then, when the path ends in `.epub`, `rm -f` on `mobiPath`.  Returns the
outcome of the block and the commands it ran, in order. -/
def plainDelete (sh : Shell) (filepath : List Char) :
    Except (List Char) Unit × List (List Char) :=
  match sh (rmCommand filepath) with
  | .error e => (.error e, [rmCommand filepath])
  | .ok _ =>
    if endsWith filepath ".epub".toList then
      match sh (rmCommand (mobiPath filepath)) with
      | .error e => (.error e, [rmCommand filepath, rmCommand (mobiPath filepath)])
      | .ok _ => (.ok (), [rmCommand filepath, rmCommand (mobiPath filepath)])
    else (.ok (), [rmCommand filepath])

/-- The counters of the bulk loop together with the commands run so far. -/
structure BulkState where
  deleted : Nat
  failed : Nat
  log : List (List Char)
  deriving DecidableEq, Repr

/-- The `for (const filepath of filepaths)` loop of delete-books; `sh i` gives
the outcomes of the commands run for the path at position `i`. -/
def deleteBooksLoop (sh : Nat → Shell) : Nat → List (List Char) → BulkState → BulkState
  | _, [], st => st
  | i, filepath :: rest, st =>
    match plainDelete (sh i) filepath with
    | (.ok _, cmds) =>
      deleteBooksLoop sh (i + 1) rest
        { deleted := st.deleted + 1, failed := st.failed, log := st.log ++ cmds }
    | (.error _, cmds) =>
      deleteBooksLoop sh (i + 1) rest
        { deleted := st.deleted, failed := st.failed + 1, log := st.log ++ cmds }

/-- The JSON body of a delete-books answer. -/
structure DeleteBooksBody where
  status : List Char
  message : List Char
  deleted : Nat
  failed : Nat
  deriving DecidableEq, Repr

/-- The delete-books handler: its response and the commands it ran. -/
def deleteBooks (sh : Nat → Shell) (filepaths : List (List Char)) :
    Response DeleteBooksBody × List (List Char) :=
  let st := deleteBooksLoop sh 0 filepaths { deleted := 0, failed := 0, log := [] }
  (.json { status := "success".toList,
           message := "Deleted ".toList ++ showNat st.deleted ++ " books".toList,
           deleted := st.deleted, failed := st.failed },
   st.log)

/-- The JSON body of a delete-book or send-books answer. -/
structure StatusBody where
  status : List Char
  message : List Char
  deriving DecidableEq, Repr

/-- The delete-book handler: its response and the commands it ran. -/
def deleteBook (sh : Shell) (filepath : List Char) :
    Response StatusBody × List (List Char) :=
  match plainDelete sh filepath with
  | (.ok _, cmds) =>
    (.json { status := "success".toList, message := "Book deleted successfully".toList }, cmds)
  | (.error _, cmds) =>
    match sh (sudoRmCommand filepath) with
    | .ok _ =>
      (.json { status := "success".toList, message := "Book deleted successfully".toList },
       cmds ++ [sudoRmCommand filepath])
    | .error sudoMessage =>
      (.error 500 ("Cannot delete file: ".toList ++ sudoMessage),
       cmds ++ [sudoRmCommand filepath])

/-! ## POST /api/send-books -/

/-- One element of the `books` array of a send request. -/
structure Book where
  filepath : List Char
  title : List Char
  author : List Char
  deriving DecidableEq, Repr

/-- The single attachment of a message. -/
structure Attachment where
  filename : List Char
  path : List Char
  deriving DecidableEq, Repr

/-- The `mailOptions` object handed to `transporter.sendMail`; `sender` and
`recipient` are its `from` and `to` fields. -/
structure MailOptions where
  sender : List Char
  recipient : List Char
  subject : List Char
  text : List Char
  attachments : List Attachment
  deriving DecidableEq, Repr

/-- The `mailOptions` built for one book; `sender` is the value of
`process.env.SMTP_SENDER || process.env.SMTP_USER`. -/
def mkMail (sender email : List Char) (book : Book) : MailOptions :=
  { sender := sender, recipient := email, subject := "Convert".toList,
    text := book.title ++ " by ".toList ++ book.author,
    attachments := [{ filename := basename book.filepath, path := book.filepath }] }

/-- The `for (const book of books)` loop of send-books.  `access i p` tells
whether `fs.access(p)` succeeds at position `i`; `sendMail i m` is the outcome
of the send at position `i`.  Returns the outcome of the loop and the messages
handed to the relay, each with the position of its book. -/
def sendLoop (access : Nat → List Char → Bool)
    (sendMail : Nat → MailOptions → Except (List Char) Unit) (sender email : List Char) :
    Nat → List Book → Except (List Char) Unit × List (Nat × MailOptions)
  | _, [] => (.ok (), [])
  | i, book :: rest =>
    if access i book.filepath then
      match sendMail i (mkMail sender email book) with
      | .ok _ =>
        let r := sendLoop access sendMail sender email (i + 1) rest
        (r.1, (i, mkMail sender email book) :: r.2)
      | .error e => (.error e, [(i, mkMail sender email book)])
    else sendLoop access sendMail sender email (i + 1) rest

/-- The send-books handler: its response and the messages handed to the
relay. -/
def sendBooks (access : Nat → List Char → Bool)
    (sendMail : Nat → MailOptions → Except (List Char) Unit) (sender email : List Char)
    (books : List Book) : Response StatusBody × List (Nat × MailOptions) :=
  match sendLoop access sendMail sender email 0 books with
  | (.ok _, log) =>
    (.json { status := "success".toList,
             message := "Sent ".toList ++ showNat books.length ++ " books to ".toList ++ email },
     log)
  | (.error message, log) => (.error 500 message, log)

/-! ## Notions used to state the properties -/

/-- Whether an external call failed. -/
def callFails (r : Except (List Char) Unit) : Bool :=
  match r with
  | .ok _ => false
  | .error _ => true

/-- Whether the `try` block both delete handlers share throws: `rm -f` on the
path fails or, for a path ending in `.epub`, `rm -f` on `mobiPath` fails.  This
is the condition under which the code enters its `catch`; it is not the
failure of the path's own deletion. -/
def tryBlockThrows (sh : Shell) (filepath : List Char) : Bool :=
  callFails (sh (rmCommand filepath)) ||
    (endsWith filepath ".epub".toList && callFails (sh (rmCommand (mobiPath filepath))))

/-- The number of paths, from position `i` on, for which the `try` block of
the bulk loop throws. -/
def thrownCount (sh : Nat → Shell) : Nat → List (List Char) → Nat
  | _, [] => 0
  | i, filepath :: rest =>
    (if tryBlockThrows (sh i) filepath then 1 else 0) + thrownCount sh (i + 1) rest

/-- The number of paths, from position `i` on, whose deletion failed: the
`rm -f` command on the path itself failed.  The removal of a sibling is not
the deletion of the path. -/
def failedDeletions (sh : Nat → Shell) : Nat → List (List Char) → Nat
  | _, [] => 0
  | i, filepath :: rest =>
    (if callFails (sh i (rmCommand filepath)) then 1 else 0) + failedDeletions sh (i + 1) rest

/-- The elements of a list up to and including the first one that fails. -/
def uptoFirstFailure {α : Type} (fails : α → Bool) : List α → List α
  | [] => []
  | x :: xs => if fails x then [x] else x :: uptoFirstFailure fails xs

/-- The books whose file exists, from position `i` on, each with its position
and the message built for it. -/
def existingBooks (access : Nat → List Char → Bool) (sender email : List Char) :
    Nat → List Book → List (Nat × MailOptions)
  | _, [] => []
  | i, book :: rest =>
    if access i book.filepath then
      (i, mkMail sender email book) :: existingBooks access sender email (i + 1) rest
    else existingBooks access sender email (i + 1) rest

/-! ## Concrete requests -/

/-- A book path under the library root. -/
def sampleEpub : List Char := "/mnt/nas/media/Books/a.epub".toList

/-- A shell in which `rm -f` on `sampleEpub` succeeds and every other command
fails: the sibling cannot be removed and `sudo` is refused. -/
def siblingFailureShell : Shell := fun command =>
  if command = rmCommand sampleEpub then .ok () else .error "Permission denied".toList

/-- A shell in which only the privileged deletion of `sampleEpub` succeeds. -/
def sudoOnlyShell : Shell := fun command =>
  if command = sudoRmCommand sampleEpub then .ok () else .error "Permission denied".toList

/-- A book path one of whose directories has `.epub` in its name. -/
def nestedEpub : List Char := "/mnt/nas/media/Books/My.epub.collection/book.epub".toList

/-- A send request of two books. -/
def sampleBooks : List Book :=
  [{ filepath := "/mnt/nas/media/Books/gone.epub".toList, title := "Gone".toList,
     author := "A".toList },
   { filepath := "/mnt/nas/media/Books/here.epub".toList, title := "Here".toList,
     author := "B".toList }]

/-- A file system in which only `here.epub` exists. -/
def sampleAccess : Nat → List Char → Bool := fun _ filepath =>
  filepath = "/mnt/nas/media/Books/here.epub".toList

/-! ## Lemmas on `split` -/

theorem splitGo_skip (sep p l acc : List Char) :
    splitGo sep (p ++ l) p.length acc = splitGo sep l 0 acc := by
  induction p with
  | nil => simp
  | cons x p ih => simpa [splitGo] using ih

theorem splitGo_cons_zero (sep : List Char) (c : Char) (cs acc : List Char) :
    splitGo sep (c :: cs) 0 acc =
      if sep.isPrefixOf (c :: cs) = true then acc.reverse :: splitGo sep cs (sep.length - 1) []
      else splitGo sep cs 0 (c :: acc) := rfl

theorem splitGo_scan (sep a l : List Char) :
    (∀ a1 a2, a = a1 ++ a2 → a2 ≠ [] → sep.isPrefixOf (a2 ++ l) = false) →
    ∀ acc, splitGo sep (a ++ l) 0 acc = splitGo sep l 0 (a.reverse ++ acc) := by
  induction a with
  | nil => intro _ acc; simp
  | cons x a ih =>
    intro h acc
    have h0 : sep.isPrefixOf (x :: (a ++ l)) = false := h [] (x :: a) rfl (by simp)
    have ih2 := ih (fun a1 a2 e ne => h (x :: a1) a2 (by simp [e]) ne) (x :: acc)
    rw [List.cons_append, splitGo_cons_zero, h0, if_neg (by decide), ih2]
    simp

theorem splitGo_hit (sep rest acc : List Char) (hne : sep ≠ []) :
    splitGo sep (sep ++ rest) 0 acc = acc.reverse :: splitGo sep rest 0 [] := by
  cases sep with
  | nil => exact absurd rfl hne
  | cons s0 ss =>
    have hp : (s0 :: ss).isPrefixOf (s0 :: (ss ++ rest)) = true := by
      rw [List.isPrefixOf_iff_prefix]; exact ⟨rest, rfl⟩
    rw [List.cons_append, splitGo_cons_zero, hp, if_pos rfl]
    have hl : (s0 :: ss).length - 1 = ss.length := by simp
    rw [hl, splitGo_skip]

theorem splitGo_ne_nil (sep l : List Char) : ∀ k acc, splitGo sep l k acc ≠ [] := by
  induction l with
  | nil => intro k acc; simp [splitGo]
  | cons c cs ih =>
    intro k acc
    cases k with
    | zero => rw [splitGo_cons_zero]; split
              · simp
              · exact ih _ _
    | succ k => exact ih k acc

/-- Splitting at a first occurrence: when no occurrence of `sep` starts inside
`a`, the first part is `a` and the rest is split on its own. -/
theorem jsSplit_first (sep a rest : List Char) (hne : sep ≠ [])
    (h : ∀ a1 a2, a = a1 ++ a2 → a2 ≠ [] → sep.isPrefixOf (a2 ++ (sep ++ rest)) = false) :
    jsSplit sep (a ++ sep ++ rest) = a :: jsSplit sep rest := by
  unfold jsSplit
  rw [List.append_assoc, splitGo_scan sep a (sep ++ rest) h [], splitGo_hit sep rest _ hne]
  simp

/-- A string without any occurrence of `sep` is its own single part. -/
theorem jsSplit_none (sep s : List Char) (h : ¬ sep <:+: s) : jsSplit sep s = [s] := by
  unfold jsSplit
  have := splitGo_scan sep s [] (by
    intro a1 a2 e _
    rw [List.append_nil]
    by_contra hc
    rw [Bool.not_eq_false, List.isPrefixOf_iff_prefix] at hc
    exact h (e ▸ (hc.isInfix.trans (List.suffix_append a1 a2).isInfix))) []
  simpa [splitGo] using this

/-! ## The filename parser: standard "Author - Title" branch -/

/-- An occurrence of `" - "` that starts inside `a` in `a ++ " - " ++ rest`
already lies in `a ++ " -"`. -/
theorem authorSep_first (a rest : List Char) (hfirst : ¬ authorSep <:+: a ++ " -".toList) :
    ∀ a1 a2, a = a1 ++ a2 → a2 ≠ [] → authorSep.isPrefixOf (a2 ++ (authorSep ++ rest)) = false := by
  intro a1 a2 e ne
  by_contra hc
  rw [Bool.not_eq_false, List.isPrefixOf_iff_prefix] at hc
  apply hfirst
  have h2 : a2 ++ " -".toList <+: a2 ++ (authorSep ++ rest) :=
    ⟨' ' :: rest, by simp [authorSep]⟩
  have hlen : authorSep.length ≤ (a2 ++ " -".toList).length := by
    cases a2 with
    | nil => exact absurd rfl ne
    | cons x t => simp [authorSep]
  have h3 : authorSep <+: a2 ++ " -".toList := List.prefix_of_prefix_length_le hc h2 hlen
  rw [e, List.append_assoc]
  exact h3.isInfix.trans (List.suffix_append a1 _).isInfix

/-- Every string containing `" - "` decomposes at a first occurrence. -/
theorem exists_first_authorSep (s : List Char) (h : authorSep <:+: s) :
    ∃ a rest, s = a ++ authorSep ++ rest ∧ ¬ authorSep <:+: a ++ " -".toList := by
  induction s with
  | nil => exact absurd h (by decide)
  | cons x xs ih =>
    by_cases hp : authorSep <+: x :: xs
    · obtain ⟨rest, hr⟩ := hp
      exact ⟨[], rest, by simpa using hr.symm, by decide⟩
    · have hx : authorSep <:+: xs := by
        rcases List.infix_cons_iff.mp h with h1 | h1
        · exact absurd h1 hp
        · exact h1
      obtain ⟨a, rest, e, hf⟩ := ih hx
      refine ⟨x :: a, rest, by simp [e], ?_⟩
      intro hc
      rcases List.infix_cons_iff.mp hc with h1 | h1
      · apply hp
        have h2 : x :: a ++ " -".toList <+: x :: xs :=
          ⟨' ' :: rest, by simp [e, authorSep]⟩
        exact h1.trans h2
      · exact hf h1

/-- The parts of a filename split at its first occurrence of `" - "`. -/
theorem jsSplit_authorSep_first (a rest : List Char) (hfirst : ¬ authorSep <:+: a ++ " -".toList) :
    jsSplit authorSep (a ++ authorSep ++ rest) = a :: jsSplit authorSep rest :=
  jsSplit_first authorSep a rest (by decide) (authorSep_first a rest hfirst)

theorem parseBookInfo_of_parts (filepath p0 p1 : List Char) (ps : List (List Char))
    (h : jsSplit authorSep (basename filepath) = p0 :: p1 :: ps) :
    (parseBookInfo filepath).author = p0 ∧ (parseBookInfo filepath).title = stripBookExt p1 := by
  simp [parseBookInfo, h]

theorem parseBookInfo_of_single (filepath p0 : List Char)
    (h : jsSplit authorSep (basename filepath) = [p0]) :
    (parseBookInfo filepath).title = cleanTitle (basename filepath) ∧
    (parseBookInfo filepath).author =
      (if !(basename (dirname filepath)).isEmpty && basename (dirname filepath) != "Books".toList
          && !(basename (dirname filepath)).contains '/'
        then basename (dirname filepath) else "Unknown".toList) := by
  simp only [parseBookInfo, h]
  split <;> simp

/-- Claim C1, as amended.  For every file path whose base filename contains
the separator `" - "`, the filename decomposes at the first occurrence of the
separator, the author returned by `parseBookInfo` is the part before that first
occurrence, and the title is the part that follows it up to the next
occurrence of the separator (the whole remainder when there is none), with a
trailing `.epub` or `.mobi` extension removed case-insensitively. -/
theorem parseBookInfo_separator (filepath : List Char)
    (h : authorSep <:+: basename filepath) :
    (∃ a rest, basename filepath = a ++ authorSep ++ rest ∧ ¬ authorSep <:+: a ++ " -".toList) ∧
    ∀ a rest, basename filepath = a ++ authorSep ++ rest → ¬ authorSep <:+: a ++ " -".toList →
      (parseBookInfo filepath).author = a ∧
      (¬ authorSep <:+: rest → (parseBookInfo filepath).title = stripBookExt rest) ∧
      (∀ t r, rest = t ++ authorSep ++ r → ¬ authorSep <:+: t ++ " -".toList →
        (parseBookInfo filepath).title = stripBookExt t) := by
  refine ⟨exists_first_authorSep _ h, ?_⟩
  intro a rest e hfirst
  have hs : jsSplit authorSep (basename filepath) = a :: jsSplit authorSep rest := by
    rw [e]; exact jsSplit_authorSep_first a rest hfirst
  refine ⟨?_, ?_, ?_⟩
  · cases hr : jsSplit authorSep rest with
    | nil => exact absurd hr (splitGo_ne_nil _ _ _ _)
    | cons p1 ps => rw [hr] at hs; exact (parseBookInfo_of_parts filepath a p1 ps hs).1
  · intro hn
    rw [jsSplit_none authorSep rest hn] at hs
    exact (parseBookInfo_of_parts filepath a rest [] hs).2
  · intro t r er ht
    rw [er, jsSplit_authorSep_first t r ht] at hs
    exact (parseBookInfo_of_parts filepath a t _ hs).2

/-- Witness for claim C1 as amended: the Jane Austen path of the specification. -/
theorem parseBookInfo_separator_witness :
    authorSep <:+: basename "/mnt/nas/media/Books/Jane Austen/Jane Austen - Pride and Prejudice.epub".toList ∧
    (parseBookInfo "/mnt/nas/media/Books/Jane Austen/Jane Austen - Pride and Prejudice.epub".toList).author
      = "Jane Austen".toList ∧
    (parseBookInfo "/mnt/nas/media/Books/Jane Austen/Jane Austen - Pride and Prejudice.epub".toList).title
      = stripBookExt "Pride and Prejudice.epub".toList ∧
    stripBookExt "Pride and Prejudice.epub".toList = "Pride and Prejudice".toList :=
  ⟨by decide,
   ((parseBookInfo_separator _ (by decide)).2 "Jane Austen".toList "Pride and Prejudice.epub".toList
      (by decide) (by decide)).1,
   ((parseBookInfo_separator _ (by decide)).2 "Jane Austen".toList "Pride and Prejudice.epub".toList
      (by decide) (by decide)).2.1 (by decide),
   by decide⟩

/-- Claim C1 as stated fails: for the filename `A - B - C.epub` the first
occurrence of `" - "` follows `A`, the whole remainder without its extension is
`B - C`, and `parseBookInfo` returns the title `B`. -/
theorem parseBookInfo_title_counterexample :
    basename "/mnt/nas/media/Books/A - B - C.epub".toList
      = "A".toList ++ authorSep ++ "B - C.epub".toList ∧
    ¬ authorSep <:+: "A".toList ++ " -".toList ∧
    stripBookExt "B - C.epub".toList = "B - C".toList ∧
    (parseBookInfo "/mnt/nas/media/Books/A - B - C.epub".toList).author = "A".toList ∧
    (parseBookInfo "/mnt/nas/media/Books/A - B - C.epub".toList).title = "B".toList ∧
    (parseBookInfo "/mnt/nas/media/Books/A - B - C.epub".toList).title
      ≠ stripBookExt "B - C.epub".toList := by
  decide

/-! ## The filename parser: non-standard branch -/

theorem jsTrim_isInfix (s : List Char) : jsTrim s <:+: s := by
  unfold jsTrim
  have h1 : s.dropWhile isJsWhitespace <:+ s := List.dropWhile_suffix _
  have h2 : ((s.dropWhile isJsWhitespace).reverse.dropWhile isJsWhitespace).reverse
      <+: s.dropWhile isJsWhitespace := by
    have := List.reverse_prefix.mpr
      (List.dropWhile_suffix isJsWhitespace (l := (s.dropWhile isJsWhitespace).reverse))
    simpa using this
  exact h2.isInfix.trans h1.isInfix

theorem head_dropWhile_not_ws (s : List Char) (c : Char)
    (h : (s.dropWhile isJsWhitespace).head? = some c) : isJsWhitespace c = false := by
  induction s with
  | nil => simp at h
  | cons x xs ih =>
    rw [List.dropWhile_cons] at h
    split at h
    · exact ih h
    · simp only [List.head?_cons, Option.some.injEq] at h
      subst h
      simpa using ‹¬ isJsWhitespace x = true›

theorem getLast_dropWhile (p : Char → Bool) (s : List Char) (c : Char)
    (h : (s.dropWhile p).getLast? = some c) : s.getLast? = some c := by
  induction s with
  | nil => simp at h
  | cons x xs ih =>
    rw [List.dropWhile_cons] at h
    split at h
    · have h2 := ih h
      cases xs with
      | nil => simp at h2
      | cons y ys => simpa [List.getLast?_cons_cons] using h2
    · exact h

theorem jsTrim_head (s : List Char) (c : Char) (h : (jsTrim s).head? = some c) :
    isJsWhitespace c = false := by
  unfold jsTrim at h
  rw [List.head?_reverse] at h
  have h2 := getLast_dropWhile _ _ _ h
  rw [List.getLast?_reverse] at h2
  exact head_dropWhile_not_ws s c h2

theorem jsTrim_getLast (s : List Char) (c : Char) (h : (jsTrim s).getLast? = some c) :
    isJsWhitespace c = false := by
  unfold jsTrim at h
  rw [List.getLast?_reverse] at h
  exact head_dropWhile_not_ws _ c h

theorem not_dot_mem_dotsToSpaces (s : List Char) : '.' ∉ dotsToSpaces s := by
  unfold dotsToSpaces
  intro h
  obtain ⟨c, _, hc⟩ := List.mem_map.mp h
  by_cases e : c = '.'
  · subst e; simp at hc
  · have : (c == '.') = false := by simpa using e
    simp only [this, Bool.false_eq_true, if_false] at hc
    exact e hc

theorem mem_collapseGo (s : List Char) :
    ∀ (b : Bool) (x : Char), x ∈ collapseGo b s → x = ' ' ∨ x ∈ s := by
  induction s with
  | nil => intro b x h; simp [collapseGo] at h
  | cons c cs ih =>
    intro b x h
    simp only [collapseGo] at h
    split at h
    · split at h
      · rcases ih _ _ h with h1 | h1
        · exact Or.inl h1
        · exact Or.inr (List.mem_cons_of_mem _ h1)
      · rcases List.mem_cons.mp h with h1 | h1
        · exact Or.inl h1
        · rcases ih _ _ h1 with h2 | h2
          · exact Or.inl h2
          · exact Or.inr (List.mem_cons_of_mem _ h2)
    · rcases List.mem_cons.mp h with h1 | h1
      · exact Or.inr (h1 ▸ List.mem_cons_self _ _)
      · rcases ih _ _ h1 with h2 | h2
        · exact Or.inl h2
        · exact Or.inr (List.mem_cons_of_mem _ h2)

/-- Two adjacent characters are never both whitespace. -/
def NoDoubleWs (a b : Char) : Prop := ¬ (isJsWhitespace a = true ∧ isJsWhitespace b = true)

theorem collapseGo_chain (s : List Char) :
    ∀ b : Bool, List.Chain' NoDoubleWs (collapseGo b s) ∧
      (b = true → ∀ c, (collapseGo b s).head? = some c → isJsWhitespace c = false) := by
  induction s with
  | nil => intro b; simp [collapseGo]
  | cons x xs ih =>
    intro b
    simp only [collapseGo]
    by_cases hx : isJsWhitespace x = true
    · simp only [hx, if_true]
      cases b with
      | true => simpa using ih true
      | false =>
        simp only [Bool.false_eq_true, if_false, false_implies, and_true]
        rw [List.chain'_cons']
        refine ⟨?_, (ih true).1⟩
        intro y hy
        have := (ih true).2 rfl y (by simpa using hy)
        simp [NoDoubleWs, this]
    · rw [if_neg hx]
      refine ⟨?_, ?_⟩
      · rw [List.chain'_cons']
        refine ⟨?_, (ih false).1⟩
        intro y _
        simp [NoDoubleWs, hx]
      · intro _ c hc
        rw [List.head?_cons, Option.some.injEq] at hc
        subst hc
        simpa using hx

theorem cleanTitle_isInfix (filename : List Char) :
    cleanTitle filename <:+: collapseWhitespace (dotsToSpaces (stripBookExt filename)) :=
  jsTrim_isInfix _

/-- Claim C2.  For every file path whose base filename does not contain
`" - "`, the title returned by `parseBookInfo` contains no dot, has no two
adjacent whitespace characters, and neither starts nor ends with a whitespace
character. -/
theorem parseBookInfo_clean_title (filepath : List Char)
    (h : ¬ authorSep <:+: basename filepath) :
    '.' ∉ (parseBookInfo filepath).title ∧
    (∀ a b, [a, b] <:+: (parseBookInfo filepath).title →
      ¬ (isJsWhitespace a = true ∧ isJsWhitespace b = true)) ∧
    (∀ c, (parseBookInfo filepath).title.head? = some c → isJsWhitespace c = false) ∧
    (∀ c, (parseBookInfo filepath).title.getLast? = some c → isJsWhitespace c = false) := by
  have ht := (parseBookInfo_of_single filepath _ (jsSplit_none authorSep _ h)).1
  rw [ht]
  refine ⟨?_, ?_, ?_, ?_⟩
  · intro hd
    have h1 := (cleanTitle_isInfix (basename filepath)).subset hd
    rcases mem_collapseGo _ _ _ h1 with h2 | h2
    · exact absurd h2 (by decide)
    · exact not_dot_mem_dotsToSpaces _ h2
  · intro a b hab
    have h1 : List.Chain' NoDoubleWs (cleanTitle (basename filepath)) :=
      List.Chain'.infix (collapseGo_chain _ false).1 (cleanTitle_isInfix (basename filepath))
    have h2 : List.Chain' NoDoubleWs [a, b] := List.Chain'.infix h1 hab
    simpa [NoDoubleWs] using h2
  · exact fun c hc => jsTrim_head _ c hc
  · exact fun c hc => jsTrim_getLast _ c hc

/-- Witness for claim C2: a dotted filename with a doubled space. -/
theorem parseBookInfo_clean_title_witness :
    ¬ authorSep <:+: basename "/mnt/nas/media/Books/unsorted/ some.book  title.EPUB".toList ∧
    (parseBookInfo "/mnt/nas/media/Books/unsorted/ some.book  title.EPUB".toList).title
      = "some book title".toList ∧
    '.' ∉ (parseBookInfo "/mnt/nas/media/Books/unsorted/ some.book  title.EPUB".toList).title :=
  ⟨by decide, by decide, (parseBookInfo_clean_title _ (by decide)).1⟩

/-! ## The path helpers on a path with a parent directory -/

theorem dropWhile_append_all (p : Char → Bool) (l r : List Char) (h : ∀ x ∈ l, p x = true) :
    (l ++ r).dropWhile p = r.dropWhile p := by
  induction l with
  | nil => rfl
  | cons x xs ih =>
    rw [List.cons_append, List.dropWhile_cons, if_pos (h x (List.mem_cons_self _ _))]
    exact ih (fun y hy => h y (List.mem_cons_of_mem _ hy))

theorem takeWhile_append_all (p : Char → Bool) (l r : List Char) (h : ∀ x ∈ l, p x = true) :
    (l ++ r).takeWhile p = l ++ r.takeWhile p := by
  induction l with
  | nil => rfl
  | cons x xs ih =>
    rw [List.cons_append, List.takeWhile_cons, if_pos (h x (List.mem_cons_self _ _)),
      ih (fun y hy => h y (List.mem_cons_of_mem _ hy))]
    rfl

theorem dropWhile_slash_of_name (name r : List Char) (hs : '/' ∉ name) (hne : name ≠ []) :
    (name.reverse ++ r).dropWhile (· == '/') = name.reverse ++ r := by
  cases hr : name.reverse with
  | nil => exact absurd (List.reverse_eq_nil_iff.mp hr) hne
  | cons x xs =>
    have hx : x ≠ '/' := by
      intro e
      apply hs
      have : x ∈ name.reverse := by rw [hr]; exact List.mem_cons_self _ _
      exact e ▸ List.mem_reverse.mp this
    rw [List.cons_append, List.dropWhile_cons, if_neg (by simpa using hx)]

theorem all_ne_slash_reverse (name : List Char) (hs : '/' ∉ name) :
    ∀ x ∈ name.reverse, (x != '/') = true := by
  intro x hx
  have : x ≠ '/' := fun e => hs (e ▸ List.mem_reverse.mp hx)
  simpa using this

/-- The base name of `pre/name`, for a non-empty `name` without slash. -/
theorem basename_append_slash (pre name : List Char) (hs : '/' ∉ name) (hne : name ≠ []) :
    basename (pre ++ '/' :: name) = name := by
  unfold basename
  rw [List.reverse_append, List.reverse_cons, List.append_assoc,
    dropWhile_slash_of_name name _ hs hne,
    takeWhile_append_all _ _ _ (all_ne_slash_reverse name hs)]
  simp

/-- The parent directory name of `pre/parent/file`, for non-empty `parent` and
`file` without slash. -/
theorem basename_dirname_parent (pre parent file : List Char)
    (hp : '/' ∉ parent) (hpne : parent ≠ []) (hf : '/' ∉ file) (hfne : file ≠ []) :
    basename (dirname (pre ++ '/' :: (parent ++ '/' :: file))) = parent := by
  have key : ∀ t : List Char,
      (((t ++ '/' :: file).reverse.dropWhile (· == '/')).dropWhile (· != '/'))
        = '/' :: t.reverse := by
    intro t
    rw [List.reverse_append, List.reverse_cons, List.append_assoc,
      dropWhile_slash_of_name file _ hf hfne,
      dropWhile_append_all _ _ _ (all_ne_slash_reverse file hf)]
    simp
  cases pre with
  | nil =>
    have hd : dirname ('/' :: (parent ++ '/' :: file)) = '/' :: parent := by
      simp only [dirname, key parent]
      have : parent.reverse.isEmpty = false := by
        cases h : parent.reverse with
        | nil => exact absurd (List.reverse_eq_nil_iff.mp h) hpne
        | cons _ _ => rfl
      simp [this]
    rw [List.nil_append, hd]
    exact basename_append_slash [] parent hp hpne
  | cons c0 pre =>
    have hd : dirname (c0 :: pre ++ '/' :: (parent ++ '/' :: file)) = c0 :: pre ++ '/' :: parent := by
      have e : pre ++ '/' :: (parent ++ '/' :: file) = (pre ++ '/' :: parent) ++ '/' :: file := by
        simp
      simp only [dirname, List.cons_append, e, key (pre ++ '/' :: parent)]
      simp
    rw [hd]
    exact basename_append_slash (c0 :: pre) parent hp hpne

/-- Claim C3.  For every file path whose base filename does not contain
`" - "`: the author returned by `parseBookInfo` is the name of the immediate
parent directory when that name is non-empty, differs from `Books` and has no
slash, and is `Unknown` in every other case; the title is the cleaned
filename in both cases.  For a path `pre/parent/file` the parent directory
name is `parent` and the filename is `file`. -/
theorem parseBookInfo_directory_author (filepath : List Char)
    (h : ¬ authorSep <:+: basename filepath) :
    (basename (dirname filepath) ≠ [] → basename (dirname filepath) ≠ "Books".toList →
      '/' ∉ basename (dirname filepath) →
      (parseBookInfo filepath).author = basename (dirname filepath)) ∧
    ((basename (dirname filepath) = [] ∨ basename (dirname filepath) = "Books".toList ∨
      '/' ∈ basename (dirname filepath)) →
      (parseBookInfo filepath).author = "Unknown".toList) ∧
    (parseBookInfo filepath).title = cleanTitle (basename filepath) ∧
    (∀ pre parent file, filepath = pre ++ '/' :: (parent ++ '/' :: file) →
      '/' ∉ parent → parent ≠ [] → '/' ∉ file → file ≠ [] →
      basename (dirname filepath) = parent ∧ basename filepath = file) := by
  obtain ⟨ht, ha⟩ := parseBookInfo_of_single filepath _ (jsSplit_none authorSep _ h)
  refine ⟨?_, ?_, ht, ?_⟩
  · intro h1 h2 h3
    have h2b : ¬ basename (dirname filepath) = ['B', 'o', 'o', 'k', 's'] := h2
    rw [ha, if_pos]
    simp [h1, h2b, h3]
  · intro hc
    rw [ha, if_neg]
    rcases hc with hc | hc | hc <;> simp [hc]
  · intro pre parent file e hp hpne hf hfne
    subst e
    refine ⟨basename_dirname_parent pre parent file hp hpne hf hfne, ?_⟩
    have e2 : pre ++ '/' :: (parent ++ '/' :: file) = (pre ++ '/' :: parent) ++ '/' :: file := by
      simp
    rw [e2]
    exact basename_append_slash _ file hf hfne

/-- Witness for claim C3: the `unsorted` path of the specification. -/
theorem parseBookInfo_directory_author_witness :
    ¬ authorSep <:+: basename "/mnt/nas/media/Books/unsorted/some.book.title.epub".toList ∧
    basename (dirname "/mnt/nas/media/Books/unsorted/some.book.title.epub".toList)
      = "unsorted".toList ∧
    (parseBookInfo "/mnt/nas/media/Books/unsorted/some.book.title.epub".toList).author
      = basename (dirname "/mnt/nas/media/Books/unsorted/some.book.title.epub".toList) ∧
    (parseBookInfo "/mnt/nas/media/Books/unsorted/some.book.title.epub".toList).title
      = cleanTitle (basename "/mnt/nas/media/Books/unsorted/some.book.title.epub".toList) ∧
    cleanTitle (basename "/mnt/nas/media/Books/unsorted/some.book.title.epub".toList)
      = "some book title".toList :=
  ⟨by decide, by decide,
   (parseBookInfo_directory_author _ (by decide)).1 (by decide) (by decide) (by decide),
   (parseBookInfo_directory_author _ (by decide)).2.2.1,
   by decide⟩

/-! ## POST /api/sync-library -/

theorem intercalate_cons_of_ne_nil (sep a : List Char) (ps : List (List Char)) (h : ps ≠ []) :
    List.intercalate sep (a :: ps) = a ++ sep ++ List.intercalate sep ps := by
  cases ps with
  | nil => exact absurd rfl h
  | cons b t => simp [List.intercalate, List.intersperse]

/-- Joining the parts of a split on one character with that character gives
the text back. -/
theorem intercalate_splitGo_char (c : Char) (l : List Char) :
    ∀ acc, List.intercalate [c] (splitGo [c] l 0 acc) = acc.reverse ++ l := by
  induction l with
  | nil => intro acc; simp [splitGo, List.intercalate, List.intersperse]
  | cons x xs ih =>
    intro acc
    rw [splitGo_cons_zero]
    split
    · rename_i hp
      have hx : c = x := by simpa [List.isPrefixOf] using hp
      rw [intercalate_cons_of_ne_nil _ _ _ (splitGo_ne_nil _ _ _ _)]
      have : [c].length - 1 = 0 := rfl
      rw [this, ih []]
      simp [hx]
    · rw [ih (x :: acc)]
      simp

/-- No part of a split on one character contains that character. -/
theorem not_mem_splitGo_char (c : Char) (l : List Char) :
    ∀ acc, c ∉ acc → ∀ part ∈ splitGo [c] l 0 acc, c ∉ part := by
  induction l with
  | nil =>
    intro acc hacc part hp
    simp only [splitGo, List.mem_singleton] at hp
    subst hp
    simpa using hacc
  | cons x xs ih =>
    intro acc hacc part hp
    rw [splitGo_cons_zero] at hp
    split at hp
    · rcases List.mem_cons.mp hp with h1 | h1
      · subst h1; simpa using hacc
      · exact ih [] (by simp) part h1
    · rename_i hn
      have hx : c ≠ x := by simpa [List.isPrefixOf] using hn
      refine ih (x :: acc) ?_ part hp
      simp [hx, hacc]

/-- Claim C4.  For every output text of the file enumeration the sync-library
handler answers with a catalog that has one entry per non-empty line of the
text, in order: the entry at position `i` has id `i`, status `ready` and the
filepath, author, title and format `parseBookInfo` returns for the `i`-th
non-empty line.  The lines are the parts of the text between newlines.  An
empty text gives the empty catalog, not an error. -/
theorem syncLibrary_catalog (clock : Nat → List Char) (stdout : List Char) :
    (∃ books, syncLibrary clock (.ok stdout) = .json books ∧
      books.length = ((jsSplit [newline] stdout).filter (fun line => line ≠ [])).length ∧
      ∀ i : Nat, books[i]? =
        (((jsSplit [newline] stdout).filter (fun line => line ≠ []))[i]?).map (fun line =>
          { id := i, filepath := (parseBookInfo line).filepath,
            filename := (parseBookInfo line).filename, author := (parseBookInfo line).author,
            title := (parseBookInfo line).title, format := (parseBookInfo line).format,
            status := "ready".toList, added := clock i : CatalogEntry })) ∧
    List.intercalate [newline] (jsSplit [newline] stdout) = stdout ∧
    (∀ line ∈ jsSplit [newline] stdout, newline ∉ line) ∧
    syncLibrary clock (.ok []) = .json [] := by
  have hf : enumeratedFiles stdout = (jsSplit [newline] stdout).filter (fun line => line ≠ []) := by
    unfold enumeratedFiles
    congr 1
    funext f
    cases f <;> simp
  refine ⟨⟨_, rfl, ?_, ?_⟩, ?_, ?_, ?_⟩
  · rw [List.length_mapIdx, hf]
  · intro i
    rw [List.getElem?_mapIdx, hf]
    rfl
  · simpa [jsSplit] using intercalate_splitGo_char newline stdout []
  · exact not_mem_splitGo_char newline stdout [] (by simp)
  · rfl

/-! ## POST /api/delete-books -/

theorem plainDelete_fails (sh : Shell) (filepath : List Char) :
    callFails (plainDelete sh filepath).1 = tryBlockThrows sh filepath := by
  unfold plainDelete tryBlockThrows
  cases h1 : sh (rmCommand filepath) with
  | error e => simp [callFails]
  | ok u =>
    cases h2 : endsWith filepath ".epub".toList with
    | false => simp [callFails]
    | true =>
      cases h3 : sh (rmCommand (mobiPath filepath)) with
      | error e => simp [callFails]
      | ok u => simp [callFails]

theorem plainDelete_log (sh : Shell) (filepath : List Char) :
    ∃ more, (plainDelete sh filepath).2 = rmCommand filepath :: more := by
  unfold plainDelete
  cases h1 : sh (rmCommand filepath) with
  | error e => exact ⟨_, rfl⟩
  | ok u =>
    cases h2 : endsWith filepath ".epub".toList with
    | false => exact ⟨[], by simp⟩
    | true =>
      cases h3 : sh (rmCommand (mobiPath filepath)) with
      | error e => exact ⟨[rmCommand (mobiPath filepath)], by simp⟩
      | ok u => exact ⟨[rmCommand (mobiPath filepath)], by simp⟩

theorem deleteBooksLoop_cons (sh : Nat → Shell) (i : Nat) (filepath : List Char)
    (rest : List (List Char)) (st : BulkState) :
    deleteBooksLoop sh i (filepath :: rest) st =
      deleteBooksLoop sh (i + 1) rest
        { deleted := st.deleted + (if tryBlockThrows (sh i) filepath then 0 else 1),
          failed := st.failed + (if tryBlockThrows (sh i) filepath then 1 else 0),
          log := st.log ++ (plainDelete (sh i) filepath).2 } := by
  have hf := plainDelete_fails (sh i) filepath
  rw [deleteBooksLoop]
  rcases hp : plainDelete (sh i) filepath with ⟨r, cmds⟩
  rw [hp] at hf
  cases r with
  | ok u =>
    have : tryBlockThrows (sh i) filepath = false := by simpa [callFails] using hf.symm
    simp [this]
  | error e =>
    have : tryBlockThrows (sh i) filepath = true := by simpa [callFails] using hf.symm
    simp [this]

theorem thrownCount_le (sh : Nat → Shell) (filepaths : List (List Char)) :
    ∀ i, thrownCount sh i filepaths ≤ filepaths.length := by
  induction filepaths with
  | nil => intro i; simp [thrownCount]
  | cons p ps ih =>
    intro i
    have := ih (i + 1)
    simp only [thrownCount, List.length_cons]
    split <;> omega

theorem deleteBooksLoop_spec (sh : Nat → Shell) (filepaths : List (List Char)) :
    ∀ i st,
      (deleteBooksLoop sh i filepaths st).failed = st.failed + thrownCount sh i filepaths ∧
      (deleteBooksLoop sh i filepaths st).deleted
        = st.deleted + (filepaths.length - thrownCount sh i filepaths) ∧
      ∃ more, (deleteBooksLoop sh i filepaths st).log = st.log ++ more ∧
        List.Sublist (filepaths.map rmCommand) more := by
  induction filepaths with
  | nil => intro i st; exact ⟨rfl, rfl, [], by simp [deleteBooksLoop], by simp⟩
  | cons p ps ih =>
    intro i st
    rw [deleteBooksLoop_cons]
    obtain ⟨h1, h2, more, h3, h4⟩ := ih (i + 1)
      { deleted := st.deleted + (if tryBlockThrows (sh i) p then 0 else 1),
        failed := st.failed + (if tryBlockThrows (sh i) p then 1 else 0),
        log := st.log ++ (plainDelete (sh i) p).2 }
    have hle := thrownCount_le sh ps (i + 1)
    refine ⟨?_, ?_, ?_⟩
    · rw [h1]; simp only [thrownCount]; omega
    · rw [h2]; simp only [thrownCount, List.length_cons]; split <;> omega
    · obtain ⟨tl, htl⟩ := plainDelete_log (sh i) p
      refine ⟨(plainDelete (sh i) p).2 ++ more, by rw [h3, List.append_assoc], ?_⟩
      rw [htl, List.map_cons, List.cons_append]
      exact (h4.trans (List.sublist_append_right tl more)).cons₂ _

/-- What the delete-books handler does: it always answers with status
`success`; `failed` counts the paths for which the `try` block throws (the
`rm -f` on the path, or the one on its sibling), `deleted` counts the others,
so `deleted + failed` is the length of the list; and the `rm -f` command of
every path of the list is run, in order, whatever fails. -/
theorem deleteBooks_tally (sh : Nat → Shell) (filepaths : List (List Char)) :
    ∃ body, (deleteBooks sh filepaths).1 = .json body ∧
      body.status = "success".toList ∧
      body.failed = thrownCount sh 0 filepaths ∧
      body.deleted = filepaths.length - thrownCount sh 0 filepaths ∧
      body.deleted + body.failed = filepaths.length ∧
      List.Sublist (filepaths.map rmCommand) (deleteBooks sh filepaths).2 := by
  obtain ⟨h1, h2, more, h3, h4⟩ :=
    deleteBooksLoop_spec sh filepaths 0 { deleted := 0, failed := 0, log := [] }
  have hle := thrownCount_le sh filepaths 0
  refine ⟨_, rfl, rfl, ?_, ?_, ?_, ?_⟩
  · simpa using h1
  · simpa using h2
  · simp only [h1, h2]; omega
  · simp only [deleteBooks, h3]; simpa using h4

/-- Claim C5, the failing request.  The list holds the single path `a.epub`;
its `rm -f` succeeds, so no path's deletion failed and `K = 0`, while the
removal of the sibling `a.mobi` fails: the delete-books handler reports
`deleted = 0` and `failed = 1` where the claim gives `deleted = 1` and
`failed = 0`. -/
theorem deleteBooks_counts_sibling_failure :
    callFails (siblingFailureShell (rmCommand sampleEpub)) = false ∧
    failedDeletions (fun _ => siblingFailureShell) 0 [sampleEpub] = 0 ∧
    [sampleEpub].length - failedDeletions (fun _ => siblingFailureShell) 0 [sampleEpub] = 1 ∧
    deleteBooks (fun _ => siblingFailureShell) [sampleEpub] =
      (.json { status := "success".toList, message := "Deleted 0 books".toList,
               deleted := 0, failed := 1 },
       [rmCommand sampleEpub, rmCommand "/mnt/nas/media/Books/a.mobi".toList]) := by
  decide

/-! ## POST /api/delete-book -/

/-- What the delete-book handler does: it reports an error exactly when the
`try` block fails (the plain deletion, or the removal of the sibling) and the
privileged deletion fails too; the message then carries the message of the
privileged deletion's error. -/
theorem deleteBook_error_iff (sh : Shell) (filepath : List Char) :
    ((∃ status message, (deleteBook sh filepath).1 = .error status message) ↔
      (tryBlockThrows sh filepath = true ∧ callFails (sh (sudoRmCommand filepath)) = true)) ∧
    (∀ status message, (deleteBook sh filepath).1 = .error status message →
      ∃ cause, sh (sudoRmCommand filepath) = .error cause ∧
        status = 500 ∧ message = "Cannot delete file: ".toList ++ cause) := by
  have hf := plainDelete_fails sh filepath
  unfold deleteBook
  rcases hp : plainDelete sh filepath with ⟨r, cmds⟩
  rw [hp] at hf
  cases r with
  | ok u =>
    have : tryBlockThrows sh filepath = false := by simpa [callFails] using hf.symm
    simp [this]
  | error e =>
    have : tryBlockThrows sh filepath = true := by simpa [callFails] using hf.symm
    cases hs : sh (sudoRmCommand filepath) with
    | ok u => simp [this, callFails]
    | error cause => simp [this, callFails]

/-- Claim C6, the failing request.  The plain deletion of `a.epub` succeeds,
the removal of the sibling `a.mobi` fails and so does the privileged retry:
the delete-book handler answers with an error. -/
theorem deleteBook_sibling_failure :
    callFails (siblingFailureShell (rmCommand sampleEpub)) = false ∧
    callFails (siblingFailureShell (rmCommand (mobiPath sampleEpub))) = true ∧
    deleteBook siblingFailureShell sampleEpub =
      (.error 500 "Cannot delete file: Permission denied".toList,
       [rmCommand sampleEpub, rmCommand "/mnt/nas/media/Books/a.mobi".toList,
        sudoRmCommand sampleEpub]) := by
  decide

/-- Claim C7, the failing request.  When the plain deletion of `a.epub` fails
and the privileged one succeeds, delete-books counts the path as failed while
delete-book, under the same outcomes, reports success. -/
theorem deleteBooks_no_privileged_retry :
    (deleteBooks (fun _ => sudoOnlyShell) [sampleEpub]).1 =
      .json { status := "success".toList, message := "Deleted 0 books".toList,
              deleted := 0, failed := 1 } ∧
    (deleteBooks (fun _ => sudoOnlyShell) [sampleEpub]).2 = [rmCommand sampleEpub] ∧
    deleteBook sudoOnlyShell sampleEpub =
      (.json { status := "success".toList, message := "Book deleted successfully".toList },
       [rmCommand sampleEpub, sudoRmCommand sampleEpub]) := by
  decide

/-! ## The sibling path -/

/-- For a path that does not end in `.epub` the shared deletion block runs the
single command `rm -f` on the path. -/
theorem plainDelete_log_of_not_epub (sh : Shell) (filepath : List Char)
    (h : endsWith filepath ".epub".toList = false) :
    (plainDelete sh filepath).2 = [rmCommand filepath] := by
  unfold plainDelete
  cases h1 : sh (rmCommand filepath) with
  | error e => rfl
  | ok u =>
    have h2 : endsWith filepath ['.', 'e', 'p', 'u', 'b'] = false := h
    simp [h2]

/-- Claim C8, the failing path.  The path ends in `.epub`, yet `mobiPath`
replaces the first `.epub`, the one in the directory name: the sibling the
handlers remove is not the path with its last five characters replaced by
`.mobi`, and it still ends in `.epub`. -/
theorem mobiPath_replaces_first_occurrence :
    endsWith nestedEpub ".epub".toList = true ∧
    mobiPath nestedEpub = "/mnt/nas/media/Books/My.mobi.collection/book.epub".toList ∧
    nestedEpub.take (nestedEpub.length - 5) ++ ".mobi".toList
      = "/mnt/nas/media/Books/My.epub.collection/book.mobi".toList ∧
    mobiPath nestedEpub ≠ nestedEpub.take (nestedEpub.length - 5) ++ ".mobi".toList ∧
    (plainDelete (fun _ => .ok ()) nestedEpub).2 =
      [rmCommand nestedEpub,
       rmCommand "/mnt/nas/media/Books/My.mobi.collection/book.epub".toList] := by
  decide

/-! ## POST /api/send-books -/

/-- Claim C9, the failing request.  Of the two submitted books the first has
no file and every send succeeds: one message is handed to the relay, for the
second book, and the success message says `Sent 2 books`. -/
theorem sendBooks_message_counts_submitted :
    (sendBooks sampleAccess (fun _ _ => .ok ()) "me@example.org".toList
        "reader@kindle.com".toList sampleBooks).1 =
      .json { status := "success".toList,
              message := "Sent 2 books to reader@kindle.com".toList } ∧
    (sendBooks sampleAccess (fun _ _ => .ok ()) "me@example.org".toList
        "reader@kindle.com".toList sampleBooks).2.length = 1 ∧
    (sendBooks sampleAccess (fun _ _ => .ok ()) "me@example.org".toList
        "reader@kindle.com".toList sampleBooks).2.map Prod.fst = [1] := by
  decide

theorem uptoFirstFailure_isPrefix {α : Type} (fails : α → Bool) (l : List α) :
    uptoFirstFailure fails l <+: l := by
  induction l with
  | nil => exact List.prefix_refl _
  | cons x xs ih =>
    simp only [uptoFirstFailure]
    split
    · exact ⟨xs, rfl⟩
    · exact (List.prefix_cons_inj x).mpr ih

/-- Every element of `uptoFirstFailure` but the last one succeeds. -/
theorem uptoFirstFailure_dropLast {α : Type} (fails : α → Bool) (l : List α) :
    ∀ x ∈ (uptoFirstFailure fails l).dropLast, fails x = false := by
  induction l with
  | nil => intro x hx; simp [uptoFirstFailure] at hx
  | cons y ys ih =>
    intro x hx
    simp only [uptoFirstFailure] at hx
    split at hx
    · simp at hx
    · rename_i hy
      cases hu : uptoFirstFailure fails ys with
      | nil => rw [hu] at hx; simp at hx
      | cons z zs =>
        rw [hu, List.dropLast_cons₂] at hx
        rcases List.mem_cons.mp hx with h1 | h1
        · rw [h1]; simpa using hy
        · exact ih x (by rw [hu]; exact h1)

theorem sendLoop_spec (access : Nat → List Char → Bool)
    (sendMail : Nat → MailOptions → Except (List Char) Unit) (sender email : List Char)
    (books : List Book) :
    ∀ i,
      (sendLoop access sendMail sender email i books).2 =
        uptoFirstFailure (fun x => callFails (sendMail x.1 x.2))
          (existingBooks access sender email i books) ∧
      (∀ e, (sendLoop access sendMail sender email i books).1 = .error e →
        ∃ x ∈ (sendLoop access sendMail sender email i books).2, sendMail x.1 x.2 = .error e) ∧
      ((sendLoop access sendMail sender email i books).1 = .ok () →
        ∀ x ∈ (sendLoop access sendMail sender email i books).2,
          callFails (sendMail x.1 x.2) = false) := by
  induction books with
  | nil => intro i; simp [sendLoop, existingBooks, uptoFirstFailure]
  | cons b bs ih =>
    intro i
    obtain ⟨h1, h2, h3⟩ := ih (i + 1)
    cases ha : access i b.filepath with
    | false =>
      simp only [sendLoop, existingBooks, ha, Bool.false_eq_true, if_false]
      exact ⟨h1, h2, h3⟩
    | true =>
      cases hs : sendMail i (mkMail sender email b) with
      | error e =>
        simp [sendLoop, existingBooks, ha, hs, uptoFirstFailure, callFails]
      | ok u =>
        have hcf : callFails (sendMail i (mkMail sender email b)) = false := by rw [hs]; rfl
        have hcu : callFails (Except.ok u : Except (List Char) Unit) = false := rfl
        simp only [sendLoop, existingBooks, ha, hs, if_true, uptoFirstFailure, hcu,
          Bool.false_eq_true, if_false]
        refine ⟨by rw [h1], ?_, ?_⟩
        · intro e he
          obtain ⟨x, hx, hxe⟩ := h2 e he
          exact ⟨x, List.mem_cons_of_mem _ hx, hxe⟩
        · intro hok x hx
          rcases List.mem_cons.mp hx with h4 | h4
          · subst h4; exact hcf
          · exact h3 hok x h4

theorem mem_existingBooks (access : Nat → List Char → Bool) (sender email : List Char)
    (books : List Book) :
    ∀ i, ∀ x ∈ existingBooks access sender email i books,
      ∃ book, books[x.1 - i]? = some book ∧ i ≤ x.1 ∧ access x.1 book.filepath = true ∧
        x.2 = mkMail sender email book := by
  induction books with
  | nil => intro i x hx; simp [existingBooks] at hx
  | cons b bs ih =>
    intro i x hx
    simp only [existingBooks] at hx
    have tail : x ∈ existingBooks access sender email (i + 1) bs →
        ∃ book, (b :: bs)[x.1 - i]? = some book ∧ i ≤ x.1 ∧ access x.1 book.filepath = true ∧
          x.2 = mkMail sender email book := by
      intro h
      obtain ⟨book, h1, h2, h3, h4⟩ := ih (i + 1) x h
      refine ⟨book, ?_, by omega, h3, h4⟩
      have : x.1 - i = (x.1 - (i + 1)) + 1 := by omega
      rw [this, List.getElem?_cons_succ]
      exact h1
    split at hx
    · rename_i ha
      rcases List.mem_cons.mp hx with h1 | h1
      · subst h1
        exact ⟨b, by simp, Nat.le_refl _, ha, rfl⟩
      · exact tail h1
    · exact tail hx

/-- Claim C10.  For every list of books, every file-existence outcome and
every assignment of outcomes to the sends, the messages the send-books handler
hands to the relay are those of the books whose file exists, in list order, up
to and including the first one whose send fails: every message but the last
was sent successfully, every message belongs to a submitted book whose file
exists, and the handler reports an error, carrying the message of the failed
send, exactly when an attempted send failed; otherwise it reports success. -/
theorem sendBooks_relay_trace (access : Nat → List Char → Bool)
    (sendMail : Nat → MailOptions → Except (List Char) Unit) (sender email : List Char)
    (books : List Book) :
    (sendBooks access sendMail sender email books).2 =
      uptoFirstFailure (fun x => callFails (sendMail x.1 x.2))
        (existingBooks access sender email 0 books) ∧
    (∀ x ∈ ((sendBooks access sendMail sender email books).2).dropLast,
      callFails (sendMail x.1 x.2) = false) ∧
    (∀ x ∈ (sendBooks access sendMail sender email books).2,
      ∃ book, books[x.1]? = some book ∧ access x.1 book.filepath = true ∧
        x.2 = mkMail sender email book) ∧
    ((∃ status message, (sendBooks access sendMail sender email books).1 = .error status message) ↔
      ∃ x ∈ (sendBooks access sendMail sender email books).2,
        callFails (sendMail x.1 x.2) = true) ∧
    (∀ status message, (sendBooks access sendMail sender email books).1 = .error status message →
      status = 500 ∧ ∃ x ∈ (sendBooks access sendMail sender email books).2,
        sendMail x.1 x.2 = .error message) ∧
    ((∀ x ∈ (sendBooks access sendMail sender email books).2,
        callFails (sendMail x.1 x.2) = false) →
      ∃ message, (sendBooks access sendMail sender email books).1 =
        .json { status := "success".toList, message := message }) := by
  obtain ⟨h1, h2, h3⟩ := sendLoop_spec access sendMail sender email books 0
  have hlog : (sendBooks access sendMail sender email books).2
      = (sendLoop access sendMail sender email 0 books).2 := by
    unfold sendBooks
    rcases sendLoop access sendMail sender email 0 books with ⟨r, log⟩
    cases r <;> rfl
  rw [hlog]
  refine ⟨h1, ?_, ?_, ?_, ?_, ?_⟩
  · rw [h1]; exact uptoFirstFailure_dropLast _ _
  · intro x hx
    rw [h1] at hx
    obtain ⟨book, e1, _, e3, e4⟩ :=
      mem_existingBooks access sender email books 0 x ((uptoFirstFailure_isPrefix _ _).subset hx)
    exact ⟨book, by simpa using e1, e3, e4⟩
  · unfold sendBooks
    rcases hr : sendLoop access sendMail sender email 0 books with ⟨r, log⟩
    rw [hr] at h2 h3
    cases r with
    | error e =>
      obtain ⟨x, hx, hxe⟩ := h2 e rfl
      simp only [Response.error.injEq, exists_and_left, exists_eq', and_true, true_iff]
      exact ⟨x, hx, by simp [hxe, callFails]⟩
    | ok u =>
      have := h3 rfl
      simp only [false_iff, not_exists, not_and]
      constructor
      · rintro ⟨_, _, h⟩; cases h
      · rintro ⟨x, hx, hf⟩
        rw [this x hx] at hf
        cases hf
  · intro status message
    unfold sendBooks
    rcases hr : sendLoop access sendMail sender email 0 books with ⟨r, log⟩
    rw [hr] at h2
    cases r with
    | error e =>
      intro he
      simp only [Response.error.injEq] at he
      obtain ⟨rfl, rfl⟩ := he
      exact ⟨rfl, h2 e rfl⟩
    | ok u => intro he; cases he
  · intro hall
    unfold sendBooks
    rcases hr : sendLoop access sendMail sender email 0 books with ⟨r, log⟩
    rw [hr] at h2 hall
    cases r with
    | error e =>
      obtain ⟨x, hx, hxe⟩ := h2 e rfl
      have := hall x hx
      rw [hxe] at this
      cases this
    | ok u => exact ⟨_, rfl⟩

end KindleConverter
